import Mathlib

/-!
# Verification of the "In a Nutshell" web application

Shallow embedding of the repository's JavaScript source into Lean 4,
with theorems settling the specification claims.

Strings are modelled as `List Char` (a JS string is a sequence of
characters).  The embedded functions mirror:

* the API route handler `POST` (input validation, credential check,
  completion call, error handling);
* the page component's `parseResponse` (regex-based section splitter),
  `renderEssentials` (numbered-block and attribute parser) and
  `clearAll` (state reset).

The JS regexes used by `parseResponse` are translated to deterministic
string functions.  This is justified because in each regex every
quantifier is followed by a literal that its character class cannot
match (e.g. `\s*` followed by a non-whitespace letter), so greedy
matching with backtracking is equivalent to maximal-munch `dropWhile`;
the single genuinely backtracking position, `[:\s]*` followed by `\n`,
is resolved exactly by cutting at the last `\n` of the maximal
`[:\s]`-run; and the lazy capture `([\s\S]*?)` followed by a lookahead
stops at the first position where the lookahead succeeds.
`String.prototype.match` without the `g` flag finds the leftmost match,
modelled by trying every suffix from the left.
-/

namespace Nutshell

/-- JS `\s` / `trim` whitespace class (the characters the app can
actually meet; exotic Unicode space separators are not modelled). -/
def isWs (c : Char) : Bool :=
  c = ' ' || c = '\t' || c = '\n' || c = '\r' || c = '\x0b' || c = '\x0c'

/-- Character class `[:\s]` from the header regexes. -/
def isColWs (c : Char) : Bool := c = ':' || isWs c

/-- JS `String.prototype.trim`, left half. -/
def trimLeft (l : List Char) : List Char := l.dropWhile isWs

/-- JS `String.prototype.trim`, right half. -/
def trimRight (l : List Char) : List Char := (l.reverse.dropWhile isWs).reverse

/-- JS `String.prototype.trim`. -/
def trim (l : List Char) : List Char := trimRight (trimLeft l)

/-- JS `String.prototype.split` on a character predicate
(e.g. `split(':')`, `split('\n')`, `split(/[,;]/)`): always returns at
least one (possibly empty) piece. -/
def splitOnPred (p : Char → Bool) : List Char → List (List Char)
  | [] => [[]]
  | c :: cs =>
    match splitOnPred p cs with
    | [] => [[]]
    | h :: t => if p c then [] :: h :: t else (c :: h) :: t

/-- JS `split(sep)` for a single separator character. -/
def splitOnChar (sep : Char) : List Char → List (List Char) :=
  splitOnPred (fun c => c = sep)

/-- JS `Array.prototype.join(sep)`. -/
def joinSep (sep : List Char) : List (List Char) → List Char
  | [] => []
  | [l] => l
  | l :: l' :: ls => l ++ sep ++ joinSep sep (l' :: ls)

/-- Case-insensitive "starts with" (JS `/i` matching of a literal). -/
def ciStarts : List Char → List Char → Bool
  | [], _ => true
  | _ :: _, [] => false
  | p :: ps, c :: cs => (p.toLower = c.toLower) && ciStarts ps cs

/-- Case-insensitive substring occurrence test. -/
def ciFind (pat : List Char) : List Char → Bool
  | [] => ciStarts pat []
  | c :: cs => ciStarts pat (c :: cs) || ciFind pat cs

end Nutshell

namespace Nutshell

/-! ## API route (`/api/generate`, `POST`) -/

/-- Outcome of the outbound completion call: a reply whose first
choice's message content may be missing (`none`), or a thrown
network/service error carrying internal detail. -/
inductive SvcOutcome where
  | reply (content : Option (List Char))
  | failure (detail : List Char)
deriving DecidableEq

/-- Body of the JSON response: an error field or a result field. -/
inductive RespBody where
  | err (msg : List Char)
  | ok (result : List Char)
deriving DecidableEq

/-- Observable behaviour of one `POST` invocation: HTTP status, JSON
body, and the `content` of the user message of the completion request
if one was issued (`none` when no call was made). -/
structure PostResult where
  status : Nat
  body : RespBody
  userMsg : Option (List Char)
deriving DecidableEq

def topicRequiredMsg : List Char := "Topic is required.".toList
def topicTooLongMsg : List Char := "Topic must be 200 characters or less.".toList
def apiKeyMsg : List Char := "API key not configured.".toList
def genericMsg : List Char := "Something went wrong. Please try again.".toList

/-- The route handler `POST` from `route.js`:

* `if (!topic || !topic.trim())` → 400 "Topic is required."
* `if (topic.length > 200)` → 400 "Topic must be 200 characters or less."
* `if (!process.env.OPENAI_API_KEY)` → 500 "API key not configured."
* otherwise call the service with `{ role: 'user', content: topic }`;
  a missing/empty completion content or a thrown error is caught and
  becomes 500 "Something went wrong. Please try again.". -/
def post (topic : List Char) (apiKey : Option (List Char)) (svc : SvcOutcome) :
    PostResult :=
  if topic = [] ∨ trim topic = [] then
    ⟨400, .err topicRequiredMsg, none⟩
  else if 200 < topic.length then
    ⟨400, .err topicTooLongMsg, none⟩
  else
    match apiKey with
    | none => ⟨500, .err apiKeyMsg, none⟩
    | some _ =>
      match svc with
      | .reply (some c) =>
        if c = [] then ⟨500, .err genericMsg, some topic⟩
        else ⟨200, .ok c, some topic⟩
      | .reply none => ⟨500, .err genericMsg, some topic⟩
      | .failure _ => ⟨500, .err genericMsg, some topic⟩

/-! ## UI component state (`page.js`) -/

/-- The five `useState` fields of the `Home` component. -/
structure UIState where
  topic : List Char
  result : List Char
  loading : Bool
  error : List Char
  copyFeedback : List Char
deriving DecidableEq

/-- `clearAll`: `setTopic('')`, `setResult('')`, `setError('')`. -/
def clearAll (s : UIState) : UIState :=
  { s with topic := [], result := [], error := [] }

end Nutshell

namespace Nutshell

/-! ## Basic lemmas about the string utilities -/

theorem dropWhile_append_eq (p : Char → Bool) (x y : List Char) :
    (x ++ y).dropWhile p =
      if x.dropWhile p = [] then y.dropWhile p else x.dropWhile p ++ y := by
  induction x with
  | nil => simp
  | cons c cs ih =>
    by_cases h : p c
    · simpa [List.dropWhile_cons, h] using ih
    · simp [List.dropWhile_cons, h]

theorem takeWhile_append_eq (p : Char → Bool) (x y : List Char) :
    (x ++ y).takeWhile p =
      if x.dropWhile p = [] then x ++ y.takeWhile p else x.takeWhile p := by
  induction x with
  | nil => simp
  | cons c cs ih =>
    by_cases h : p c
    · by_cases h2 : cs.dropWhile p = [] <;>
        simp [List.takeWhile_cons, List.dropWhile_cons, h, h2, ih]
    · simp [List.takeWhile_cons, List.dropWhile_cons, h]

theorem dropWhile_eq_nil_iff_all (p : Char → Bool) (x : List Char) :
    x.dropWhile p = [] ↔ ∀ c ∈ x, p c = true := by
  induction x with
  | nil => simp
  | cons c cs ih =>
    by_cases h : p c <;> simp [List.dropWhile_cons, h, ih]

theorem dropWhile_head_not (p : Char → Bool) (c : Char) (cs : List Char)
    (h : p c = false) : (c :: cs).dropWhile p = c :: cs := by
  simp [List.dropWhile_cons, h]

theorem dropWhile_isSuffix (p : Char → Bool) (x : List Char) :
    x.dropWhile p <:+ x := by
  induction x with
  | nil => simp
  | cons c cs ih =>
    by_cases h : p c
    · simp only [List.dropWhile_cons, h, if_pos]
      exact ih.trans (List.suffix_cons c cs)
    · simp [List.dropWhile_cons, h]

theorem trimLeft_eq_self (l : List Char)
    (h : ∀ c, l.head? = some c → isWs c = false) : trimLeft l = l := by
  cases l with
  | nil => rfl
  | cons c cs => exact dropWhile_head_not _ _ _ (h c rfl)

theorem trimRight_eq_self (l : List Char)
    (h : ∀ c, l.getLast? = some c → isWs c = false) : trimRight l = l := by
  unfold trimRight
  cases hl : l.reverse with
  | nil =>
    have hnil : l = [] := by simpa using congrArg List.reverse hl
    simp [hnil]
  | cons c cs =>
    have hc : isWs c = false := by
      refine h c ?_
      rw [← List.head?_reverse, hl]
      rfl
    rw [dropWhile_head_not _ _ _ hc]
    rw [← hl]
    rw [l.reverse_reverse]

theorem trim_eq_self (l : List Char)
    (h1 : ∀ c, l.head? = some c → isWs c = false)
    (h2 : ∀ c, l.getLast? = some c → isWs c = false) : trim l = l := by
  unfold trim
  rw [trimLeft_eq_self l h1, trimRight_eq_self l h2]

/-! ## Item parser (`renderEssentials` in `page.js`)

`renderEssentials` groups the Essentials text into numbered blocks and
parses each block into a title plus labelled attributes.  The data it
computes per card is modelled by `RankedItem`/`Attr`; the grouping
`lines.forEach` loop is `blocksGo`, the per-block parsing is
`itemOfBlock`, and the per-line attribute split is `parseAttr`. -/

/-- JS test `/^\d+\.\s/.test(trimmedLine)`. -/
def isNum (l : List Char) : Bool :=
  let ds := l.takeWhile Char.isDigit
  !ds.isEmpty &&
    (match l.drop ds.length with
     | '.' :: c :: _ => isWs c
     | _ => false)

/-- JS `line.replace(/^\d+\.\s*/, '')` (greedy `\d+` then `.` then
optional whitespace; if the pattern does not match, the line is kept). -/
def stripOrd (l : List Char) : List Char :=
  let ds := l.takeWhile Char.isDigit
  if ds.isEmpty then l
  else
    match l.drop ds.length with
    | '.' :: rest => rest.dropWhile isWs
    | _ => l

def vibeWord : List Char := ['v', 'i', 'b', 'e']

/-- One rendered attribute row of an essential card. -/
inductive Attr where
  | vibe (label : List Char) (tags : List (List Char))
  | labeled (label content : List Char)
  | plain (line : List Char)
deriving DecidableEq

/-- JS `content.split(/[,;]/).map(v => v.trim()).filter(v => v)`. -/
def splitTags (content : List Char) : List (List Char) :=
  ((splitOnPred (fun c => c = ',' || c = ';') content).map trim).filter
    (fun v => !v.isEmpty)

/-- One attribute line: `const parts = line.split(':')`; with at least
two parts, label is `parts[0].trim()`, content is
`parts.slice(1).join(':').trim()`, and a label matching `/^Vibe$/i`
is split into tags. -/
def parseAttr (line : List Char) : Attr :=
  match splitOnChar ':' line with
  | p0 :: p1 :: rest =>
    let label := trim p0
    let content := trim (joinSep [':'] (p1 :: rest))
    if label.map Char.toLower = vibeWord then .vibe label (splitTags content)
    else .labeled label content
  | _ => .plain line

/-- One essential card: title (ordinal stripped) and attribute rows. -/
structure RankedItem where
  title : List Char
  attrs : List Attr
deriving DecidableEq

/-- Per-block parsing inside `rawItems.map`: re-split the block on
newlines, trim, drop empties; first line (ordinal stripped) is the
title, the remaining lines are attributes. -/
def itemOfBlock (block : List Char) : Option RankedItem :=
  match ((splitOnChar '\n' block).map trim).filter (fun l => !l.isEmpty) with
  | [] => none
  | l0 :: rest => some ⟨stripOrd l0, rest.map parseAttr⟩

/-- The `lines.forEach` grouping loop: a numbered line flushes the
current block and starts a new one, a non-empty line joins the current
block, an empty line is skipped; the last block is flushed at the end. -/
def blocksGo : List (List Char) → List (List Char) → List (List Char) →
    List (List Char)
  | [], cur, acc => if cur.isEmpty then acc else acc ++ [joinSep ['\n'] cur]
  | line :: rest, cur, acc =>
    let t := trim line
    if isNum t then
      blocksGo rest [t] (if cur.isEmpty then acc else acc ++ [joinSep ['\n'] cur])
    else if t.isEmpty then blocksGo rest cur acc
    else blocksGo rest (cur ++ [t]) acc

/-- `rawItems` computed by `renderEssentials` from the Essentials text. -/
def splitBlocks (text : List Char) : List (List Char) :=
  blocksGo (splitOnChar '\n' text) [] []

/-- The sequence of essential cards rendered for the Essentials text. -/
def essItems (text : List Char) : List RankedItem :=
  (splitBlocks text).filterMap itemOfBlock

/-! ## Lemmas about splitting and joining -/

theorem splitOnPred_ne_nil (p : Char → Bool) (l : List Char) :
    splitOnPred p l ≠ [] := by
  cases l with
  | nil => simp [splitOnPred]
  | cons c cs =>
    simp only [splitOnPred]
    cases splitOnPred p cs with
    | nil => simp
    | cons h t => by_cases hc : p c <;> simp [hc]

theorem splitOnPred_no_sep (p : Char → Bool) (l : List Char)
    (h : ∀ a ∈ l, p a = false) : splitOnPred p l = [l] := by
  induction l with
  | nil => rfl
  | cons c cs ih =>
    have hc : p c = false := h c (by simp)
    have ihe : splitOnPred p cs = [cs] := ih fun a ha => h a (by simp [ha])
    simp [splitOnPred, ihe, hc]

theorem splitOnPred_append (p : Char → Bool) (pre post : List Char) (c : Char)
    (hpre : ∀ a ∈ pre, p a = false) (hc : p c = true) :
    splitOnPred p (pre ++ c :: post) = pre :: splitOnPred p post := by
  induction pre with
  | nil =>
    simp only [List.nil_append, splitOnPred]
    cases hs : splitOnPred p post with
    | nil => exact absurd hs (splitOnPred_ne_nil p post)
    | cons h t => simp [hc]
  | cons a as ih =>
    have ha : p a = false := hpre a (by simp)
    have ihe := ih fun x hx => hpre x (by simp [hx])
    simp only [List.cons_append, splitOnPred, List.append_eq]
    rw [ihe]
    simp [ha]

theorem joinSep_cons_cons (sep x y : List Char) (t : List (List Char)) :
    joinSep sep (x :: y :: t) = x ++ sep ++ joinSep sep (y :: t) := rfl

theorem joinSep_splitOnPred (p : Char → Bool) (c : Char)
    (hp : ∀ a, p a = true ↔ a = c) (v : List Char) :
    joinSep [c] (splitOnPred p v) = v := by
  induction v with
  | nil => rfl
  | cons a as ih =>
    simp only [splitOnPred]
    cases hs : splitOnPred p as with
    | nil => exact absurd hs (splitOnPred_ne_nil _ as)
    | cons h t =>
      rw [hs] at ih
      by_cases hac : p a
      · have hc : a = c := (hp a).mp hac
        subst hc
        simp only [hac, if_pos]
        rw [joinSep_cons_cons, List.nil_append]
        rw [ih]
        simp
      · simp only [hac, if_neg, Bool.false_eq_true, not_false_eq_true]
        cases t with
        | nil =>
          simp only [joinSep] at ih ⊢
          rw [ih]
        | cons t0 ts =>
          rw [joinSep_cons_cons] at ih ⊢
          rw [← ih]
          simp

theorem joinSep_splitOnChar (c : Char) (v : List Char) :
    joinSep [c] (splitOnChar c v) = v :=
  joinSep_splitOnPred _ c (by intro a; simp) v

theorem splitOnChar_joinSep (sep : Char) (ls : List (List Char)) (hne : ls ≠ [])
    (h : ∀ l ∈ ls, ∀ a ∈ l, a ≠ sep) :
    splitOnChar sep (joinSep [sep] ls) = ls := by
  induction ls with
  | nil => exact absurd rfl hne
  | cons l ls ih =>
    cases ls with
    | nil =>
      show splitOnPred _ l = [l]
      exact splitOnPred_no_sep _ l fun a ha => by
        simpa using h l (by simp) a ha
    | cons l' ls' =>
      rw [joinSep_cons_cons]
      have : l ++ [sep] ++ joinSep [sep] (l' :: ls') =
          l ++ sep :: joinSep [sep] (l' :: ls') := by simp
      rw [this]
      unfold splitOnChar
      rw [splitOnPred_append _ l _ sep
        (fun a ha => by simpa using h l (by simp) a ha) (by simp)]
      rw [show splitOnPred (fun c => decide (c = sep)) (joinSep [sep] (l' :: ls')) =
        splitOnChar sep (joinSep [sep] (l' :: ls')) from rfl]
      rw [ih (by simp) fun x hx a ha => h x (by simp [hx]) a ha]

/-! ## Section parser (`parseResponse` in the page component)

`parseResponse` runs three case-insensitive regexes and trims the
first capture group of each:

* `/1\.\s*In a Nutshell[:\s]*\n([\s\S]*?)(?=\n\s*2\.\s*The Essentials|$)/i`
* `/2\.\s*The Essentials[:\s]*\n([\s\S]*?)(?=\n\s*3\.\s*Why it Matters|$)/i`
* `/3\.\s*Why it Matters[:\s]*\n([\s\S]*?)$/i`

A missing match leaves that section as the empty string. -/

def hdrNut : List Char :=
  ['I', 'n', ' ', 'a', ' ', 'N', 'u', 't', 's', 'h', 'e', 'l', 'l']
def hdrEss : List Char :=
  ['T', 'h', 'e', ' ', 'E', 's', 's', 'e', 'n', 't', 'i', 'a', 'l', 's']
def hdrWhy : List Char :=
  ['W', 'h', 'y', ' ', 'i', 't', ' ', 'M', 'a', 't', 't', 'e', 'r', 's']

/-- Index of the last `\n` in the list, if any (used on the maximal
`[:\s]`-run to resolve greedy `[:\s]*` followed by `\n`). -/
def lastNlIdx : List Char → Option Nat
  | [] => none
  | c :: cs =>
    match lastNlIdx cs with
    | some i => some (i + 1)
    | none => if c = '\n' then some 0 else none

/-- Match `[:\s]*\n` greedily: cut right after the last `\n` of the
maximal `[:\s]`-run, failing when the run has no `\n`. -/
def afterSep (s : List Char) : Option (List Char) :=
  match lastNlIdx (s.takeWhile isColWs) with
  | some i => some (s.drop (i + 1))
  | none => none

/-- Body of the lookahead after its `\n` and `\s*`:
`<o>` then `.` then `\s*` then the header, case-insensitively. -/
def lookBody (o : Char) (hdr : List Char) : List Char → Bool
  | c2 :: d :: v => c2 = o && d = '.' && ciStarts hdr (v.dropWhile isWs)
  | _ => false

/-- The lookahead `\n\s*<o>\.\s*<hdr>` (header matched
case-insensitively); each `\s*` is deterministic because the next
required character is not whitespace. -/
def lookNext (o : Char) (hdr : List Char) : List Char → Bool
  | c :: t => if c = '\n' then lookBody o hdr (t.dropWhile isWs) else false
  | [] => false

/-- Rest of the header pattern after its ordinal character:
`\.\s*<hdr>[:\s]*\n`. -/
def matchAfterOrd (hdr : List Char) : List Char → Option (List Char)
  | d :: s2 =>
    if d = '.' then
      if ciStarts hdr (s2.dropWhile isWs) then
        afterSep ((s2.dropWhile isWs).drop hdr.length)
      else none
    else none
  | [] => none

/-- Match `<o>\.\s*<hdr>[:\s]*\n` at the current position, returning
the text after the separator's final `\n`. -/
def matchHdr (o : Char) (hdr : List Char) : List Char → Option (List Char)
  | c :: s1 => if c = o then matchAfterOrd hdr s1 else none
  | [] => none

/-- The lazy capture `([\s\S]*?)` before a lookahead alternated with
`$`: stop at the first position where the lookahead succeeds, or at
the end of the text. -/
def captureUntil (look : List Char → Bool) : List Char → List Char
  | [] => []
  | c :: rest => if look (c :: rest) then [] else c :: captureUntil look rest

/-- Leftmost match of `String.prototype.match`: try the pattern at
every position from the left. -/
def findFrom (f : List Char → Option (List Char)) :
    List Char → Option (List Char)
  | [] => f []
  | c :: rest =>
    match f (c :: rest) with
    | some r => some r
    | none => findFrom f rest

def try1 (s : List Char) : Option (List Char) :=
  (matchHdr '1' hdrNut s).map (captureUntil (lookNext '2' hdrEss))

def try2 (s : List Char) : Option (List Char) :=
  (matchHdr '2' hdrEss s).map (captureUntil (lookNext '3' hdrWhy))

def try3 (s : List Char) : Option (List Char) :=
  (matchHdr '3' hdrWhy s).map id

/-- The `sections` record produced by `parseResponse`. -/
structure ParsedSections where
  nutshell : List Char
  essentials : List Char
  context : List Char
deriving DecidableEq

/-- `parseResponse`: each field is the trimmed capture of its regex,
or the empty string when the regex does not match. -/
def parseResponse (text : List Char) : ParsedSections :=
  { nutshell := ((findFrom try1 text).map trim).getD []
    essentials := ((findFrom try2 text).map trim).getD []
    context := ((findFrom try3 text).map trim).getD [] }

/-! ## Claim C4: inputs without recognizable headers parse to empties -/

theorem ciFind_of_starts_suffix {pat s t : List Char} (hsuf : s <:+ t)
    (h : ciStarts pat s = true) : ciFind pat t = true := by
  induction t with
  | nil =>
    have hs : s = [] := List.suffix_nil.mp hsuf
    subst hs
    simpa [ciFind] using h
  | cons c cs ih =>
    obtain ⟨w, hw⟩ := hsuf
    cases w with
    | nil =>
      simp only [List.nil_append] at hw
      subst hw
      simp [ciFind, h]
    | cons a as =>
      have hs : s <:+ cs := ⟨as, by injection hw⟩
      simp [ciFind, ih hs]

theorem matchHdr_some_starts {o : Char} {hdr s r : List Char}
    (h : matchHdr o hdr s = some r) :
    ∃ u, u <:+ s ∧ ciStarts hdr u = true := by
  cases s with
  | nil => simp [matchHdr] at h
  | cons c s1 =>
    simp only [matchHdr] at h
    by_cases hc : c = o
    · rw [if_pos hc] at h
      cases s1 with
      | nil => simp [matchAfterOrd] at h
      | cons d s2 =>
        simp only [matchAfterOrd] at h
        by_cases hd : d = '.'
        · rw [if_pos hd] at h
          by_cases hcs : ciStarts hdr (s2.dropWhile isWs) = true
          · refine ⟨s2.dropWhile isWs, ?_, hcs⟩
            exact (dropWhile_isSuffix isWs s2).trans
              ((List.suffix_cons d s2).trans (List.suffix_cons c (d :: s2)))
          · rw [if_neg hcs] at h
            simp at h
        · rw [if_neg hd] at h
          simp at h
    · rw [if_neg hc] at h
      simp at h

theorem findFrom_some {f : List Char → Option (List Char)}
    {text r : List Char} (h : findFrom f text = some r) :
    ∃ s, s <:+ text ∧ f s = some r := by
  induction text with
  | nil => exact ⟨[], by simp, h⟩
  | cons c cs ih =>
    unfold findFrom at h
    cases hf : f (c :: cs) with
    | some r' =>
      rw [hf] at h
      refine ⟨c :: cs, List.suffix_refl _, ?_⟩
      rw [hf]
      exact h
    | none =>
      rw [hf] at h
      obtain ⟨s, hs, hfs⟩ := ih h
      exact ⟨s, hs.trans (List.suffix_cons c cs), hfs⟩

theorem findFrom_matchHdr_none (o : Char) (hdr : List Char)
    (g : List Char → List Char) (text : List Char)
    (h : ciFind hdr text = false) :
    findFrom (fun s => (matchHdr o hdr s).map g) text = none := by
  cases hf : findFrom (fun s => (matchHdr o hdr s).map g) text with
  | none => rfl
  | some r =>
    obtain ⟨s, hs, hfs⟩ := findFrom_some hf
    cases hm : matchHdr o hdr s with
    | none => rw [hm] at hfs; simp at hfs
    | some m =>
      obtain ⟨u, hu, hcs⟩ := matchHdr_some_starts hm
      rw [ciFind_of_starts_suffix (hu.trans hs) hcs] at h
      simp at h

/-- C4: a reply in which none of the three header phrases occurs (even
case-insensitively) parses to three empty sections; `parseResponse` is
a total function, so no exception is possible. -/
theorem parseResponse_no_headers (text : List Char)
    (h1 : ciFind hdrNut text = false)
    (h2 : ciFind hdrEss text = false)
    (h3 : ciFind hdrWhy text = false) :
    parseResponse text = ⟨[], [], []⟩ := by
  have k1 : findFrom try1 text = none :=
    findFrom_matchHdr_none '1' hdrNut _ text h1
  have k2 : findFrom try2 text = none :=
    findFrom_matchHdr_none '2' hdrEss _ text h2
  have k3 : findFrom try3 text = none :=
    findFrom_matchHdr_none '3' hdrWhy _ text h3
  unfold parseResponse
  rw [k1, k2, k3]
  rfl

/-- C4 witness. -/
theorem parseResponse_no_headers_witness :
    ciFind hdrNut "hello world".toList = false ∧
    parseResponse "hello world".toList = ⟨[], [], []⟩ :=
  ⟨by decide,
    parseResponse_no_headers _ (by decide) (by decide) (by decide)⟩

/-! ## Lemmas towards the amended C1 (round-trip with required
ordinals) -/

theorem ciStarts_self_append (pat rest : List Char) :
    ciStarts pat (pat ++ rest) = true := by
  induction pat with
  | nil => rfl
  | cons p ps ih => simp [ciStarts, ih]

theorem ciStarts_cut (pat : List Char) (hpat : ∀ p ∈ pat, p.toLower ≠ '\n') :
    ∀ x junk, ciStarts pat (x ++ '\n' :: junk) = true →
      ciStarts pat x = true := by
  induction pat with
  | nil => intro x junk _; rfl
  | cons p ps ih =>
    intro x junk h
    cases x with
    | nil =>
      exfalso
      simp only [List.nil_append, ciStarts, Bool.and_eq_true,
        decide_eq_true_eq] at h
      have hn : ('\n' : Char).toLower = '\n' := by decide
      exact hpat p (by simp) (h.1.trans hn)
    | cons c cs =>
      simp only [List.cons_append, ciStarts, Bool.and_eq_true] at h ⊢
      exact ⟨h.1, ih (fun q hq => hpat q (by simp [hq])) cs junk h.2⟩

theorem ciFind_false_suffix {pat b : List Char} (h : ciFind pat b = false) :
    ∀ s, s <:+ b → ciStarts pat s = false := by
  intro s hs
  cases hcs : ciStarts pat s with
  | false => rfl
  | true =>
    rw [ciFind_of_starts_suffix hs hcs] at h
    simp at h

theorem ciStarts_false_of_head (p c : Char) (ps cs : List Char)
    (h : p.toLower ≠ c.toLower) : ciStarts (p :: ps) (c :: cs) = false := by
  simp [ciStarts, h]

theorem suffix_of_cons {c : Char} {y b : List Char} (h : (c :: y) <:+ b) :
    y <:+ b :=
  (List.suffix_cons c y).trans h

theorem suffix_getLast?_eq {b y : List Char} (hy : y <:+ b) (hne : y ≠ []) :
    y.getLast? = b.getLast? := by
  obtain ⟨w, rfl⟩ := hy
  exact (List.getLast?_append_of_ne_nil w hne).symm

theorem suffix_all_ws_absurd {b y : List Char} (hy : y <:+ b) (hne : y ≠ [])
    (hall : y.dropWhile isWs = [])
    (hlast : ∀ c, b.getLast? = some c → isWs c = false) : False := by
  have hmem : ∀ a ∈ y, isWs a = true :=
    (dropWhile_eq_nil_iff_all isWs y).mp hall
  cases y with
  | nil => exact hne rfl
  | cons a as =>
    have hgl : (a :: as).getLast? = some ((a :: as).getLast (by simp)) :=
      List.getLast?_eq_getLast _ _
    have hws : isWs ((a :: as).getLast (by simp)) = true :=
      hmem _ (List.getLast_mem _)
    have hbad : isWs ((a :: as).getLast (by simp)) = false := by
      refine hlast _ ?_
      rw [← suffix_getLast?_eq hy hne, hgl]
    rw [hws] at hbad
    exact absurd hbad (by simp)

theorem matchHdr_ne_head (o : Char) (hdr : List Char) (c : Char)
    (s : List Char) (h : c ≠ o) : matchHdr o hdr (c :: s) = none := by
  simp [matchHdr, h]

theorem findFrom_cons_none (f : List Char → Option (List Char)) (c : Char)
    (rest : List Char) (h : f (c :: rest) = none) :
    findFrom f (c :: rest) = findFrom f rest := by
  simp only [findFrom, h]

theorem findFrom_cons_some (f : List Char → Option (List Char)) (c : Char)
    (rest r : List Char) (h : f (c :: rest) = some r) :
    findFrom f (c :: rest) = some r := by
  simp only [findFrom, h]

theorem findFrom_append_fail (f : List Char → Option (List Char))
    (b junk : List Char)
    (hfail : ∀ y, y <:+ b → y ≠ [] → f (y ++ junk) = none) :
    findFrom f (b ++ junk) = findFrom f junk := by
  induction b with
  | nil => rfl
  | cons c b' ih =>
    rw [show (c :: b') ++ junk = c :: (b' ++ junk) from rfl]
    rw [findFrom_cons_none f c (b' ++ junk)
      (hfail (c :: b') (List.suffix_refl _) (by simp))]
    exact ih fun y hy hne => hfail y (hy.trans (List.suffix_cons c b')) hne

theorem findFrom_try_skip (o : Char) (hdr : List Char)
    (f : List Char → Option (List Char)) (g : List Char → List Char)
    (hf : ∀ s, f s = (matchHdr o hdr s).map g) (b junk : List Char)
    (h : o ∉ b) :
    findFrom f (b ++ junk) = findFrom f junk := by
  apply findFrom_append_fail
  intro y hy hne
  cases y with
  | nil => exact absurd rfl hne
  | cons c y' =>
    have hco : c ≠ o := by
      intro hc
      exact h (hc ▸ hy.subset (by simp))
    rw [show (c :: y') ++ junk = c :: (y' ++ junk) from rfl]
    rw [hf, matchHdr_ne_head o hdr c _ hco]
    rfl

theorem matchHdr_fail_inside (o : Char) (hdr b junk' : List Char)
    (hpat : ∀ p ∈ hdr, p.toLower ≠ '\n')
    (hfind : ∀ s, s <:+ b → ciStarts hdr s = false)
    (hD : ciStarts hdr (junk'.dropWhile isWs) = false) :
    ∀ y, y <:+ b → y ≠ [] → matchHdr o hdr (y ++ '\n' :: junk') = none := by
  intro y hy hne
  cases y with
  | nil => exact absurd rfl hne
  | cons c y' =>
    rw [show (c :: y') ++ '\n' :: junk' = c :: (y' ++ '\n' :: junk') from rfl]
    simp only [matchHdr]
    by_cases hc : c = o
    · rw [if_pos hc]
      cases y' with
      | nil =>
        simp only [List.nil_append, matchAfterOrd]
        rw [if_neg (by decide)]
      | cons d y'' =>
        rw [show (d :: y'') ++ '\n' :: junk' = d :: (y'' ++ '\n' :: junk')
          from rfl]
        simp only [matchAfterOrd]
        by_cases hd : d = '.'
        · rw [if_pos hd]
          have hfalse :
              ciStarts hdr ((y'' ++ '\n' :: junk').dropWhile isWs) = false := by
            rw [dropWhile_append_eq]
            by_cases hall : y''.dropWhile isWs = []
            · rw [if_pos hall]
              rw [show ('\n' :: junk').dropWhile isWs = junk'.dropWhile isWs
                from by rw [List.dropWhile_cons, if_pos (by decide)]]
              exact hD
            · rw [if_neg hall]
              cases hcs : ciStarts hdr (y''.dropWhile isWs ++ '\n' :: junk') with
              | false => rfl
              | true =>
                exfalso
                have h2 : ciStarts hdr (y''.dropWhile isWs) = true :=
                  ciStarts_cut hdr hpat _ _ hcs
                have hsuf : y''.dropWhile isWs <:+ b :=
                  (dropWhile_isSuffix isWs y'').trans
                    (suffix_of_cons (suffix_of_cons hy))
                rw [hfind _ hsuf] at h2
                exact absurd h2 (by simp)
          rw [hfalse]
          simp
        · rw [if_neg hd]
    · rw [if_neg hc]

theorem lookNext_fail_inside (o : Char) (hdr b junk' : List Char)
    (hpat : ∀ p ∈ hdr, p.toLower ≠ '\n')
    (hfind : ∀ s, s <:+ b → ciStarts hdr s = false)
    (hlast : ∀ c, b.getLast? = some c → isWs c = false)
    (hD : ciStarts hdr (junk'.dropWhile isWs) = false) :
    ∀ y, y <:+ b → y ≠ [] → lookNext o hdr (y ++ '\n' :: junk') = false := by
  intro y hy hne
  cases y with
  | nil => exact absurd rfl hne
  | cons c y' =>
    rw [show (c :: y') ++ '\n' :: junk' = c :: (y' ++ '\n' :: junk') from rfl]
    simp only [lookNext]
    by_cases hc : c = '\n'
    · rw [if_pos hc]
      rw [dropWhile_append_eq]
      by_cases hall : y'.dropWhile isWs = []
      · exfalso
        by_cases hy' : y' = []
        · subst hy'
          subst hc
          exact suffix_all_ws_absurd hy (by simp) (by decide) hlast
        · exact suffix_all_ws_absurd (suffix_of_cons hy) hy' hall hlast
      · rw [if_neg hall]
        cases hdw : y'.dropWhile isWs with
        | nil => exact absurd hdw hall
        | cons e w =>
          rw [show (e :: w) ++ '\n' :: junk' = e :: (w ++ '\n' :: junk')
            from rfl]
          cases w with
          | nil =>
            simp only [List.nil_append, lookBody]
            rw [show (decide (('\n' : Char) = '.')) = false from rfl]
            simp
          | cons d w' =>
            rw [show (d :: w') ++ '\n' :: junk' = d :: (w' ++ '\n' :: junk')
              from rfl]
            simp only [lookBody]
            have hfalse :
                ciStarts hdr ((w' ++ '\n' :: junk').dropWhile isWs) = false := by
              rw [dropWhile_append_eq]
              by_cases hall2 : w'.dropWhile isWs = []
              · rw [if_pos hall2]
                rw [show ('\n' :: junk').dropWhile isWs = junk'.dropWhile isWs
                  from by rw [List.dropWhile_cons, if_pos (by decide)]]
                exact hD
              · rw [if_neg hall2]
                cases hcs : ciStarts hdr (w'.dropWhile isWs ++ '\n' :: junk') with
                | false => rfl
                | true =>
                  exfalso
                  have h2 : ciStarts hdr (w'.dropWhile isWs) = true :=
                    ciStarts_cut hdr hpat _ _ hcs
                  have hsufdw : (e :: d :: w') <:+ y' :=
                    hdw ▸ dropWhile_isSuffix isWs y'
                  have hsufw : w' <:+ b :=
                    ((suffix_of_cons (suffix_of_cons
                      (List.suffix_refl (e :: d :: w')))).trans hsufdw).trans
                      (suffix_of_cons hy)
                  have hsuf : w'.dropWhile isWs <:+ b :=
                    (dropWhile_isSuffix isWs w').trans hsufw
                  rw [hfind _ hsuf] at h2
                  exact absurd h2 (by simp)
            rw [hfalse]
            simp
    · rw [if_neg hc]

theorem captureUntil_append (look : List Char → Bool) (b junk : List Char)
    (hfail : ∀ y, y <:+ b → y ≠ [] → look (y ++ junk) = false)
    (hstop : look junk = true) :
    captureUntil look (b ++ junk) = b := by
  induction b with
  | nil =>
    cases junk with
    | nil => rfl
    | cons c rest =>
      simp only [List.nil_append, captureUntil]
      rw [if_pos hstop]
  | cons c b' ih =>
    rw [show (c :: b') ++ junk = c :: (b' ++ junk) from rfl]
    simp only [captureUntil]
    have hlk := hfail (c :: b') (List.suffix_refl _) (by simp)
    rw [show (c :: b') ++ junk = c :: (b' ++ junk) from rfl] at hlk
    rw [hlk]
    simp only [Bool.false_eq_true, if_false, List.cons.injEq, true_and]
    exact ih fun y hy hne => hfail y (hy.trans (List.suffix_cons c b')) hne

theorem afterSep_nl (R : List Char)
    (h : ∀ c, R.head? = some c → isColWs c = false) :
    afterSep ('\n' :: R) = some R := by
  have hr : R.takeWhile isColWs = [] := by
    cases R with
    | nil => rfl
    | cons c rest => simp [List.takeWhile_cons, h c rfl]
  unfold afterSep
  rw [show ('\n' :: R).takeWhile isColWs = '\n' :: R.takeWhile isColWs from by
    rw [List.takeWhile_cons, if_pos (by decide)]]
  rw [hr]
  rfl

theorem matchHdr_at_header (o : Char) (hdr R : List Char)
    (hh : hdr.dropWhile isWs = hdr) (hne : hdr ≠ [])
    (hR : ∀ c, R.head? = some c → isColWs c = false) :
    matchHdr o hdr (o :: '.' :: ' ' :: (hdr ++ '\n' :: R)) = some R := by
  simp only [matchHdr]
  rw [if_pos trivial]
  simp only [matchAfterOrd]
  rw [if_pos trivial]
  have h1 : (' ' :: (hdr ++ '\n' :: R)).dropWhile isWs = hdr ++ '\n' :: R := by
    rw [List.dropWhile_cons, if_pos (by decide)]
    rw [dropWhile_append_eq, hh, if_neg hne]
  rw [h1]
  rw [ciStarts_self_append hdr ('\n' :: R)]
  rw [if_pos rfl]
  rw [List.drop_left]
  exact afterSep_nl R hR

theorem lookNext_at_header (o : Char) (hdr R : List Char) (ho : isWs o = false)
    (hh : hdr.dropWhile isWs = hdr) (hne : hdr ≠ []) :
    lookNext o hdr ('\n' :: o :: '.' :: ' ' :: (hdr ++ '\n' :: R)) = true := by
  simp only [lookNext]
  rw [if_pos trivial]
  rw [show (o :: '.' :: ' ' :: (hdr ++ '\n' :: R)).dropWhile isWs =
      o :: '.' :: ' ' :: (hdr ++ '\n' :: R) from
    dropWhile_head_not isWs o _ ho]
  simp only [lookBody]
  have h1 : (' ' :: (hdr ++ '\n' :: R)).dropWhile isWs = hdr ++ '\n' :: R := by
    rw [List.dropWhile_cons, if_pos (by decide)]
    rw [dropWhile_append_eq, hh, if_neg hne]
  rw [h1, ciStarts_self_append]
  simp

/-- A body suitable for exact round-trip: non-empty, not beginning with
whitespace or a colon, not ending with whitespace (already trimmed). -/
def bodyOkB : List Char → Bool
  | [] => false
  | c :: rest =>
    !isWs c && !(c = ':') &&
      (match (c :: rest).getLast? with
       | some d => !isWs d
       | none => true)

theorem bodyOk_ne_nil {b : List Char} (h : bodyOkB b = true) : b ≠ [] := by
  cases b with
  | nil => simp [bodyOkB] at h
  | cons c rest => simp

theorem bodyOk_head {b : List Char} (h : bodyOkB b = true) :
    ∀ c, b.head? = some c → isColWs c = false := by
  cases b with
  | nil => simp [bodyOkB] at h
  | cons c rest =>
    intro d hd
    simp only [List.head?_cons, Option.some_inj] at hd
    subst hd
    simp only [bodyOkB, Bool.and_eq_true, Bool.not_eq_true',
      decide_eq_false_iff_not] at h
    simp [isColWs, h.1.1, h.1.2]

theorem bodyOk_last {b : List Char} (h : bodyOkB b = true) :
    ∀ c, b.getLast? = some c → isWs c = false := by
  cases b with
  | nil => simp [bodyOkB] at h
  | cons c rest =>
    intro d hd
    simp only [bodyOkB, Bool.and_eq_true] at h
    have h2 := h.2
    rw [hd] at h2
    simpa using h2

theorem bodyOk_head_ws {b : List Char} (h : bodyOkB b = true) :
    ∀ c, b.head? = some c → isWs c = false := by
  intro c hc
  have := bodyOk_head h c hc
  unfold isColWs at this
  simp only [Bool.or_eq_false_iff] at this
  exact this.2

theorem bodyOk_trim {b : List Char} (h : bodyOkB b = true) : trim b = b :=
  trim_eq_self b (bodyOk_head_ws h) (bodyOk_last h)

theorem head?_append_of_ne_nil {b x : List Char} (hne : b ≠ []) :
    (b ++ x).head? = b.head? := by
  cases b with
  | nil => exact absurd rfl hne
  | cons a as => rfl

/-- Tail of the canonical reply from the third header on. -/
def part3 (b3 : List Char) : List Char :=
  '3' :: '.' :: ' ' :: (hdrWhy ++ '\n' :: b3)

/-- Tail of the canonical reply from the second header on. -/
def part2 (b2 b3 : List Char) : List Char :=
  '2' :: '.' :: ' ' :: (hdrEss ++ '\n' :: (b2 ++ '\n' :: part3 b3))

/-- The canonical three-section reply with its required ordinal
markers:
`1. In a Nutshell\n<b1>\n2. The Essentials\n<b2>\n3. Why it Matters\n<b3>`. -/
def canonicalReply (b1 b2 b3 : List Char) : List Char :=
  '1' :: '.' :: ' ' :: (hdrNut ++ '\n' :: (b1 ++ '\n' :: part2 b2 b3))

theorem hdrEss_no_nl : ∀ p ∈ hdrEss, p.toLower ≠ '\n' := by decide

theorem hdrWhy_no_nl : ∀ p ∈ hdrWhy, p.toLower ≠ '\n' := by decide

theorem ciStarts_hdrEss_part2 (b2 b3 : List Char) :
    ciStarts hdrEss ((part2 b2 b3).dropWhile isWs) = false := by
  unfold part2
  rw [dropWhile_head_not isWs '2' _ (by decide)]
  unfold hdrEss
  exact ciStarts_false_of_head _ _ _ _ (by decide)

theorem ciStarts_hdrWhy_part2 (b2 b3 : List Char) :
    ciStarts hdrWhy ((part2 b2 b3).dropWhile isWs) = false := by
  unfold part2
  rw [dropWhile_head_not isWs '2' _ (by decide)]
  unfold hdrWhy
  exact ciStarts_false_of_head _ _ _ _ (by decide)

theorem ciStarts_hdrWhy_part3 (b3 : List Char) :
    ciStarts hdrWhy ((part3 b3).dropWhile isWs) = false := by
  unfold part3
  rw [dropWhile_head_not isWs '3' _ (by decide)]
  unfold hdrWhy
  exact ciStarts_false_of_head _ _ _ _ (by decide)

theorem findFrom_try1_canonical (b1 b2 b3 : List Char)
    (hb1 : bodyOkB b1 = true) (hf1 : ciFind hdrEss b1 = false) :
    findFrom try1 (canonicalReply b1 b2 b3) = some b1 := by
  have hRhead : ∀ c, (b1 ++ '\n' :: part2 b2 b3).head? = some c →
      isColWs c = false := by
    intro c hc
    rw [head?_append_of_ne_nil (bodyOk_ne_nil hb1)] at hc
    exact bodyOk_head hb1 c hc
  have hfail1 : ∀ y, y <:+ b1 → y ≠ [] →
      lookNext '2' hdrEss (y ++ '\n' :: part2 b2 b3) = false :=
    lookNext_fail_inside '2' hdrEss b1 (part2 b2 b3) hdrEss_no_nl
      (ciFind_false_suffix hf1) (bodyOk_last hb1) (ciStarts_hdrEss_part2 b2 b3)
  have hstop1 : lookNext '2' hdrEss ('\n' :: part2 b2 b3) = true := by
    unfold part2
    exact lookNext_at_header '2' hdrEss _ (by decide) (by decide) (by decide)
  unfold canonicalReply
  apply findFrom_cons_some
  unfold try1
  rw [matchHdr_at_header '1' hdrNut (b1 ++ '\n' :: part2 b2 b3)
    (by decide) (by decide) hRhead]
  rw [Option.map_some']
  rw [captureUntil_append (lookNext '2' hdrEss) b1 ('\n' :: part2 b2 b3)
    hfail1 hstop1]

theorem findFrom_try2_canonical (b1 b2 b3 : List Char)
    (hb2 : bodyOkB b2 = true)
    (hf1 : ciFind hdrEss b1 = false) (hf3 : ciFind hdrWhy b2 = false) :
    findFrom try2 (canonicalReply b1 b2 b3) = some b2 := by
  have hRhead : ∀ c, (b2 ++ '\n' :: part3 b3).head? = some c →
      isColWs c = false := by
    intro c hc
    rw [head?_append_of_ne_nil (bodyOk_ne_nil hb2)] at hc
    exact bodyOk_head hb2 c hc
  have hfail2 : ∀ y, y <:+ b2 → y ≠ [] →
      lookNext '3' hdrWhy (y ++ '\n' :: part3 b3) = false :=
    lookNext_fail_inside '3' hdrWhy b2 (part3 b3) hdrWhy_no_nl
      (ciFind_false_suffix hf3) (bodyOk_last hb2) (ciStarts_hdrWhy_part3 b3)
  have hstop2 : lookNext '3' hdrWhy ('\n' :: part3 b3) = true := by
    unfold part3
    exact lookNext_at_header '3' hdrWhy _ (by decide) (by decide) (by decide)
  have hbfail : ∀ y, y <:+ b1 → y ≠ [] →
      try2 (y ++ '\n' :: part2 b2 b3) = none := by
    intro y hy hne
    unfold try2
    rw [matchHdr_fail_inside '2' hdrEss b1 (part2 b2 b3) hdrEss_no_nl
      (ciFind_false_suffix hf1) (ciStarts_hdrEss_part2 b2 b3) y hy hne]
    rfl
  unfold canonicalReply
  rw [show ('1' :: '.' :: ' ' ::
      (hdrNut ++ '\n' :: (b1 ++ '\n' :: part2 b2 b3))) =
    (('1' :: '.' :: ' ' :: (hdrNut ++ ['\n'])) ++
      (b1 ++ '\n' :: part2 b2 b3)) from by simp]
  rw [findFrom_try_skip '2' hdrEss try2 _ (fun s => rfl) _ _ (by decide)]
  rw [findFrom_append_fail try2 b1 ('\n' :: part2 b2 b3) hbfail]
  rw [findFrom_cons_none try2 '\n' (part2 b2 b3) (by
    rw [show try2 ('\n' :: part2 b2 b3) =
      (matchHdr '2' hdrEss ('\n' :: part2 b2 b3)).map
        (captureUntil (lookNext '3' hdrWhy)) from rfl]
    rw [matchHdr_ne_head '2' hdrEss '\n' _ (by decide)]
    rfl)]
  unfold part2
  apply findFrom_cons_some
  unfold try2
  rw [matchHdr_at_header '2' hdrEss (b2 ++ '\n' :: part3 b3)
    (by decide) (by decide) hRhead]
  rw [Option.map_some']
  rw [captureUntil_append (lookNext '3' hdrWhy) b2 ('\n' :: part3 b3)
    hfail2 hstop2]

theorem findFrom_try3_canonical (b1 b2 b3 : List Char)
    (hb3 : bodyOkB b3 = true)
    (hf2 : ciFind hdrWhy b1 = false) (hf3 : ciFind hdrWhy b2 = false) :
    findFrom try3 (canonicalReply b1 b2 b3) = some b3 := by
  have hbfail1 : ∀ y, y <:+ b1 → y ≠ [] →
      try3 (y ++ '\n' :: part2 b2 b3) = none := by
    intro y hy hne
    unfold try3
    rw [matchHdr_fail_inside '3' hdrWhy b1 (part2 b2 b3) hdrWhy_no_nl
      (ciFind_false_suffix hf2) (ciStarts_hdrWhy_part2 b2 b3) y hy hne]
    rfl
  have hbfail2 : ∀ y, y <:+ b2 → y ≠ [] →
      try3 (y ++ '\n' :: part3 b3) = none := by
    intro y hy hne
    unfold try3
    rw [matchHdr_fail_inside '3' hdrWhy b2 (part3 b3) hdrWhy_no_nl
      (ciFind_false_suffix hf3) (ciStarts_hdrWhy_part3 b3) y hy hne]
    rfl
  unfold canonicalReply
  rw [show ('1' :: '.' :: ' ' ::
      (hdrNut ++ '\n' :: (b1 ++ '\n' :: part2 b2 b3))) =
    (('1' :: '.' :: ' ' :: (hdrNut ++ ['\n'])) ++
      (b1 ++ '\n' :: part2 b2 b3)) from by simp]
  rw [findFrom_try_skip '3' hdrWhy try3 _ (fun s => rfl) _ _ (by decide)]
  rw [findFrom_append_fail try3 b1 ('\n' :: part2 b2 b3) hbfail1]
  rw [findFrom_cons_none try3 '\n' (part2 b2 b3) (by
    rw [show try3 ('\n' :: part2 b2 b3) =
      (matchHdr '3' hdrWhy ('\n' :: part2 b2 b3)).map id from rfl]
    rw [matchHdr_ne_head '3' hdrWhy '\n' _ (by decide)]
    rfl)]
  rw [show part2 b2 b3 =
    (('2' :: '.' :: ' ' :: (hdrEss ++ ['\n'])) ++
      (b2 ++ '\n' :: part3 b3)) from by simp [part2]]
  rw [findFrom_try_skip '3' hdrWhy try3 _ (fun s => rfl) _ _ (by decide)]
  rw [findFrom_append_fail try3 b2 ('\n' :: part3 b3) hbfail2]
  rw [findFrom_cons_none try3 '\n' (part3 b3) (by
    rw [show try3 ('\n' :: part3 b3) =
      (matchHdr '3' hdrWhy ('\n' :: part3 b3)).map id from rfl]
    rw [matchHdr_ne_head '3' hdrWhy '\n' _ (by decide)]
    rfl)]
  unfold part3
  apply findFrom_cons_some
  unfold try3
  rw [matchHdr_at_header '3' hdrWhy b3 (by decide) (by decide)
    (bodyOk_head hb3)]
  rfl

/-- C1 (amended): a reply in canonical three-section form with the
*required* ordinal markers — `1. In a Nutshell`, `2. The Essentials`,
`3. Why it Matters`, each on its own line followed by its body — is
parsed back to exactly the three bodies, provided each body is trimmed
(no leading/trailing whitespace), does not begin with a colon, and does
not contain a later header phrase. -/
theorem parseResponse_canonical (b1 b2 b3 : List Char)
    (hb1 : bodyOkB b1 = true) (hb2 : bodyOkB b2 = true)
    (hb3 : bodyOkB b3 = true)
    (hf1 : ciFind hdrEss b1 = false) (hf2 : ciFind hdrWhy b1 = false)
    (hf3 : ciFind hdrWhy b2 = false) :
    parseResponse (canonicalReply b1 b2 b3) = ⟨b1, b2, b3⟩ := by
  unfold parseResponse
  rw [findFrom_try1_canonical b1 b2 b3 hb1 hf1]
  rw [findFrom_try2_canonical b1 b2 b3 hb2 hf1 hf3]
  rw [findFrom_try3_canonical b1 b2 b3 hb3 hf2 hf3]
  simp only [Option.map_some', Option.getD_some]
  rw [bodyOk_trim hb1, bodyOk_trim hb2, bodyOk_trim hb3]

/-- C1 witness: the amended theorem at a concrete reply whose
Essentials body spans several lines. -/
theorem parseResponse_canonical_witness :
    bodyOkB "AAA".toList = true ∧
    ciFind hdrEss "AAA".toList = false ∧
    parseResponse (canonicalReply "AAA".toList
        "1. X\nVibe: a, b, c".toList "CCC".toList) =
      ⟨"AAA".toList, "1. X\nVibe: a, b, c".toList, "CCC".toList⟩ :=
  ⟨by decide, by decide,
    parseResponse_canonical _ _ _ (by decide) (by decide) (by decide)
      (by decide) (by decide) (by decide)⟩

/-- C1 counterexample: headers present in order with non-empty bodies
but without their ordinal markers (which the claim says are optional)
are not recognized: every regex requires the ordinal, so all three
sections come back empty instead of the bodies. -/
theorem parseResponse_counterexample :
    parseResponse
        "In a Nutshell\nAAA\nThe Essentials\nBBB\nWhy it Matters\nCCC".toList ≠
      ⟨"AAA".toList, "BBB".toList, "CCC".toList⟩ ∧
    parseResponse
        "In a Nutshell\nAAA\nThe Essentials\nBBB\nWhy it Matters\nCCC".toList =
      ⟨[], [], []⟩ := by
  decide

/-! ## Well-formedness predicates used to state the claims -/

/-- The first and last characters (when present) are not whitespace,
i.e. the string is already trimmed at both ends. -/
def noWsEnds (l : List Char) : Bool :=
  (match l.head? with
   | some c => !isWs c
   | none => true) &&
  (match l.getLast? with
   | some c => !isWs c
   | none => true)

/-- A line as the block grouper can keep it: non-empty, trimmed and
newline-free. -/
def goodLineB (l : List Char) : Bool :=
  !l.isEmpty && noWsEnds l && l.all (fun a => !(a = '\n'))

/-- A well-formed numbered block: a numbered good first line followed by
good non-numbered lines. -/
def wfBlockB : List (List Char) → Bool
  | [] => false
  | h :: t => isNum h && goodLineB h && t.all (fun l => goodLineB l && !isNum l)

theorem good_ne_nil {l : List Char} (h : goodLineB l = true) : l ≠ [] := by
  intro hnil
  subst hnil
  simp [goodLineB] at h

theorem good_head_not_ws {l : List Char} (h : goodLineB l = true) :
    ∀ c, l.head? = some c → isWs c = false := by
  intro c hc
  unfold goodLineB noWsEnds at h
  rw [hc] at h
  simp only [Bool.and_eq_true, Bool.not_eq_true'] at h
  exact h.1.2.1

theorem good_getLast_not_ws {l : List Char} (h : goodLineB l = true) :
    ∀ c, l.getLast? = some c → isWs c = false := by
  intro c hc
  unfold goodLineB noWsEnds at h
  rw [hc] at h
  simp only [Bool.and_eq_true, Bool.not_eq_true'] at h
  exact h.1.2.2

theorem good_trim {l : List Char} (h : goodLineB l = true) : trim l = l :=
  trim_eq_self l (good_head_not_ws h) (good_getLast_not_ws h)

theorem good_no_nl {l : List Char} (h : goodLineB l = true) :
    ∀ a ∈ l, a ≠ '\n' := by
  intro a ha
  unfold goodLineB at h
  simp only [Bool.and_eq_true, List.all_eq_true] at h
  have := h.2 a ha
  simpa using this

/-! ## Block grouping recovers well-formed blocks -/

theorem blocksGo_nonnum (ls : List (List Char)) :
    (∀ l ∈ ls, goodLineB l = true ∧ isNum l = false) →
    ∀ rest cur acc, blocksGo (ls ++ rest) cur acc =
      blocksGo rest (cur ++ ls) acc := by
  induction ls with
  | nil => intro _ rest cur acc; simp
  | cons l ls ih =>
    intro h rest cur acc
    obtain ⟨hg, hn⟩ := h l (by simp)
    have ht : trim l = l := good_trim hg
    have hne : l.isEmpty = false := by
      cases l with
      | nil => exact absurd rfl (good_ne_nil hg)
      | cons a as => rfl
    simp only [List.cons_append, blocksGo, ht, hn, hne, Bool.false_eq_true,
      if_false, List.append_eq]
    rw [ih (fun x hx => h x (by simp [hx]))]
    simp

theorem blocksGo_blocks (blocks : List (List (List Char))) :
    (∀ b ∈ blocks, wfBlockB b = true) →
    ∀ cur acc, blocksGo blocks.flatten cur acc =
      (if cur.isEmpty then acc else acc ++ [joinSep ['\n'] cur]) ++
        blocks.map (joinSep ['\n']) := by
  induction blocks with
  | nil =>
    intro _ cur acc
    by_cases hc : cur.isEmpty <;> simp [blocksGo, hc]
  | cons b bs ih =>
    intro h cur acc
    have hb := h b (by simp)
    cases b with
    | nil => simp [wfBlockB] at hb
    | cons bh bt =>
      unfold wfBlockB at hb
      simp only [Bool.and_eq_true, List.all_eq_true] at hb
      obtain ⟨⟨hnum, hgood⟩, htail⟩ := hb
      have ht : trim bh = bh := good_trim hgood
      have hjoin : List.flatten ((bh :: bt) :: bs) = bh :: (bt ++ bs.flatten) := by
        simp
      rw [hjoin]
      simp only [blocksGo, ht, hnum, if_pos]
      rw [blocksGo_nonnum bt (fun l hl => by
        have := htail l hl
        simpa [Bool.and_eq_true] using this)]
      rw [ih (fun x hx => h x (by simp [hx]))]
      simp [List.append_assoc]

theorem wf_all_good {b : List (List Char)} (h : wfBlockB b = true) :
    ∀ l ∈ b, goodLineB l = true := by
  cases b with
  | nil => simp [wfBlockB] at h
  | cons bh bt =>
    unfold wfBlockB at h
    simp only [Bool.and_eq_true, List.all_eq_true] at h
    intro l hl
    rcases List.mem_cons.mp hl with rfl | hl
    · exact h.1.2
    · have := h.2 l hl
      simp only [Bool.and_eq_true] at this
      exact this.1

theorem filter_map_trim_id (ls : List (List Char)) :
    (∀ l ∈ ls, goodLineB l = true) →
    ((ls.map trim).filter (fun l => !l.isEmpty)) = ls := by
  induction ls with
  | nil => intro _; rfl
  | cons l ls ih =>
    intro h
    have hg := h l (by simp)
    have ht : trim l = l := good_trim hg
    have hne : l.isEmpty = false := by
      cases l with
      | nil => exact absurd rfl (good_ne_nil hg)
      | cons a as => rfl
    simp only [List.map_cons, List.filter_cons, ht, hne]
    simp only [Bool.not_false, if_pos]
    rw [ih (fun x hx => h x (by simp [hx]))]

theorem itemOfBlock_joinSep (bh : List Char) (bt : List (List Char))
    (h : ∀ l ∈ bh :: bt, goodLineB l = true) :
    itemOfBlock (joinSep ['\n'] (bh :: bt)) =
      some ⟨stripOrd bh, bt.map parseAttr⟩ := by
  unfold itemOfBlock
  rw [splitOnChar_joinSep '\n' (bh :: bt) (by simp)
    (fun l hl a ha => good_no_nl (h l hl) a ha)]
  rw [filter_map_trim_id _ h]

theorem filterMap_length_of_isSome {α β : Type} (f : α → Option β)
    (xs : List α) (h : ∀ x ∈ xs, (f x).isSome = true) :
    (xs.filterMap f).length = xs.length := by
  induction xs with
  | nil => rfl
  | cons x xs ih =>
    have hx := h x (by simp)
    obtain ⟨y, hy⟩ := Option.isSome_iff_exists.mp hx
    simp only [List.filterMap_cons, hy, List.length_cons]
    rw [ih (fun a ha => h a (by simp [ha]))]

/-! ## Interaction of trimming with splitting -/

theorem dropWhile_head?_not (p : Char → Bool) (l : List Char) :
    ∀ c, (l.dropWhile p).head? = some c → p c = false := by
  induction l with
  | nil => intro c hc; simp at hc
  | cons a as ih =>
    intro c hc
    by_cases ha : p a
    · rw [List.dropWhile_cons, if_pos ha] at hc
      exact ih c hc
    · rw [List.dropWhile_cons, if_neg ha] at hc
      cases hc
      simpa using ha

theorem trimLeft_idem (l : List Char) : trimLeft (trimLeft l) = trimLeft l := by
  unfold trimLeft
  cases hd : l.dropWhile isWs with
  | nil => rfl
  | cons c cs =>
    have hc : isWs c = false := dropWhile_head?_not isWs l c (by rw [hd]; rfl)
    exact dropWhile_head_not _ _ _ hc

theorem trim_trimLeft (l : List Char) : trim (trimLeft l) = trim l := by
  unfold trim
  rw [trimLeft_idem]

theorem trimLeft_ne_nil_of_trim {l : List Char} (h : trim l ≠ []) :
    l.dropWhile isWs ≠ [] := by
  intro hl
  refine h ?_
  unfold trim trimLeft
  rw [hl]
  rfl

theorem trim_ne_nil_ne {l : List Char} (h : trim l ≠ []) : l ≠ [] := by
  intro hl
  subst hl
  exact h rfl

theorem ne_nil_isEmpty_false {l : List Char} (h : l ≠ []) :
    l.isEmpty = false := by
  cases l with
  | nil => exact absurd rfl h
  | cons a as => rfl

/-- Splitting a three-tag value `x,y,z` (commas/semicolons only at the
two separators) after trimming yields exactly the three trimmed tags. -/
theorem splitTags_three (x y z : List Char)
    (hx : ∀ a ∈ x, a ≠ ',' ∧ a ≠ ';') (hy : ∀ a ∈ y, a ≠ ',' ∧ a ≠ ';')
    (hz : ∀ a ∈ z, a ≠ ',' ∧ a ≠ ';')
    (hxt : trim x ≠ []) (hyt : trim y ≠ []) (hzt : trim z ≠ [])
    (hlast : ∀ c, z.getLast? = some c → isWs c = false) :
    splitTags (trim (x ++ ',' :: (y ++ ',' :: z))) =
      [trim x, trim y, trim z] := by
  have hz_ne : z ≠ [] := trim_ne_nil_ne hzt
  have hx' : x.dropWhile isWs ≠ [] := trimLeft_ne_nil_of_trim hxt
  have htrim : trim (x ++ ',' :: (y ++ ',' :: z)) =
      x.dropWhile isWs ++ ',' :: (y ++ ',' :: z) := by
    unfold trim trimLeft
    rw [dropWhile_append_eq, if_neg hx']
    apply trimRight_eq_self
    intro c hc
    rw [List.getLast?_append_of_ne_nil _ (by simp)] at hc
    rw [show (',' :: (y ++ ',' :: z) : List Char) =
      (',' :: y) ++ ([','] ++ z) by simp] at hc
    rw [List.getLast?_append_of_ne_nil _ (by simp [hz_ne])] at hc
    rw [List.getLast?_append_of_ne_nil _ hz_ne] at hc
    exact hlast c hc
  rw [htrim]
  unfold splitTags
  have hsubset : ∀ a ∈ x.dropWhile isWs, a ≠ ',' ∧ a ≠ ';' := fun a ha =>
    hx a ((dropWhile_isSuffix isWs x).subset ha)
  have hfree : ∀ (w : List Char), (∀ a ∈ w, a ≠ ',' ∧ a ≠ ';') →
      ∀ a ∈ w, (fun c => decide (c = ',') || decide (c = ';')) a = false := by
    intro w hw a ha
    have := hw a ha
    simp [this.1, this.2]
  rw [splitOnPred_append _ _ _ ',' (hfree _ hsubset) (by simp)]
  rw [splitOnPred_append _ _ _ ',' (hfree _ hy) (by simp)]
  rw [splitOnPred_no_sep _ z (hfree _ hz)]
  have hxx : trim (List.dropWhile isWs x) = trim x := trim_trimLeft x
  simp only [List.map_cons, List.map_nil, hxx]
  have hxe := ne_nil_isEmpty_false hxt
  have hye := ne_nil_isEmpty_false hyt
  have hze := ne_nil_isEmpty_false hzt
  simp [List.filter, hxe, hye, hze]

/-! ## Whole-body recovery of the block list -/

theorem splitBlocks_flatten (blocks : List (List (List Char)))
    (hne : blocks ≠ []) (h : ∀ b ∈ blocks, wfBlockB b = true) :
    splitBlocks (joinSep ['\n'] blocks.flatten) =
      blocks.map (joinSep ['\n']) := by
  unfold splitBlocks
  have hnl : ∀ l ∈ blocks.flatten, ∀ a ∈ l, a ≠ '\n' := by
    intro l hl a ha
    obtain ⟨b, hb, hlb⟩ := List.mem_flatten.mp hl
    exact good_no_nl (wf_all_good (h b hb) l hlb) a ha
  have hfne : blocks.flatten ≠ [] := by
    cases blocks with
    | nil => exact absurd rfl hne
    | cons b bs =>
      have hb := h b (by simp)
      cases b with
      | nil => simp [wfBlockB] at hb
      | cons bh bt => simp
  rw [splitOnChar_joinSep '\n' blocks.flatten hfne hnl]
  rw [blocksGo_blocks blocks h [] []]
  rfl

theorem filterMap_eq_map_of {α β : Type} (f : α → Option β) (g : α → β)
    (l : List α) (h : ∀ x ∈ l, f x = some (g x)) :
    l.filterMap f = l.map g := by
  induction l with
  | nil => rfl
  | cons x xs ih =>
    simp only [List.filterMap_cons, h x (by simp), List.map_cons]
    rw [ih (fun a ha => h a (by simp [ha]))]

theorem stripOrd_no_digit (l : List Char)
    (h : ∀ c, l.head? = some c → c.isDigit = false) : stripOrd l = l := by
  cases l with
  | nil => rfl
  | cons c cs =>
    have hc : c.isDigit = false := h c rfl
    unfold stripOrd
    simp [List.takeWhile_cons, hc]

/-! ## Claim C5: attribute lines split at the first colon -/

/-- Splitting an attribute line at its first colon: shared analysis of
`parseAttr` on `pre ++ ':' :: post` with `pre` colon-free. -/
theorem parseAttr_split (pre post : List Char) (hpre : (':' : Char) ∉ pre) :
    parseAttr (pre ++ ':' :: post) =
      if (trim pre).map Char.toLower = vibeWord then
        .vibe (trim pre) (splitTags (trim post))
      else .labeled (trim pre) (trim post) := by
  unfold parseAttr
  have hsplit : splitOnChar ':' (pre ++ ':' :: post) =
      pre :: splitOnChar ':' post := by
    unfold splitOnChar
    exact splitOnPred_append _ pre post ':'
      (fun a ha => by
        simp only [decide_eq_false_iff_not]
        intro hcol
        exact hpre (hcol ▸ ha)) (by simp)
  rw [hsplit]
  cases hs : splitOnChar ':' post with
  | nil => exact absurd hs (splitOnPred_ne_nil _ post)
  | cons h t =>
    have hjoin : joinSep [':'] (h :: t) = post := by
      rw [← hs]
      exact joinSep_splitOnChar ':' post
    simp only [hjoin]

/-- C5: an attribute line containing a colon is split at its *first*
colon; the label is the trimmed text before it and the value is the
trimmed text after it, with any further colons preserved inside the
value.  (Stated for non-`Vibe` labels, which render as label/value
rows; a `Vibe` label sends the same preserved value to the tag
splitter instead.) -/
theorem parseAttr_first_colon (pre post : List Char)
    (hpre : (':' : Char) ∉ pre)
    (hvibe : (trim pre).map Char.toLower ≠ vibeWord) :
    parseAttr (pre ++ ':' :: post) = .labeled (trim pre) (trim post) := by
  rw [parseAttr_split pre post hpre, if_neg hvibe]

/-- C5 witness: the claim's own example, with an embedded colon in the
value. -/
theorem parseAttr_first_colon_witness :
    (':' : Char) ∉ "What is it?".toList ∧
    parseAttr ("What is it?".toList ++ ':' :: " A 1965 work: a turning point.".toList)
      = .labeled "What is it?".toList "A 1965 work: a turning point.".toList := by
  refine ⟨by decide, ?_⟩
  rw [parseAttr_first_colon _ _ (by decide) (by decide)]
  decide

/-! ## Claim C6: ten numbered blocks with Vibe lines -/

/-- Data of one numbered Essentials block whose final attribute line is
a three-tag `Vibe` line: the numbered title line, intermediate
attribute lines, and the Vibe label with its three comma-separated
tags. -/
structure EssBlock where
  title : List Char
  mids : List (List Char)
  vibeLabel : List Char
  tag1 : List Char
  tag2 : List Char
  tag3 : List Char
deriving DecidableEq

/-- The block's final line `Vibe: X, Y, Z`. -/
def vibeLine (b : EssBlock) : List Char :=
  b.vibeLabel ++ ':' :: (b.tag1 ++ ',' :: (b.tag2 ++ ',' :: b.tag3))

/-- All lines of the block, title first, Vibe line last. -/
def blockLines (b : EssBlock) : List (List Char) :=
  b.title :: (b.mids ++ [vibeLine b])

/-- A usable tag: free of commas and semicolons and non-blank. -/
def tagOkB (t : List Char) : Bool :=
  t.all (fun a => !(a = ',') && !(a = ';')) && !(trim t).isEmpty

/-- Well-formedness of an `EssBlock` (numbered trimmed title, good
non-numbered middle lines, a good non-numbered Vibe line whose label
matches `Vibe` case-insensitively, three usable tags). -/
def wfEssBlock (b : EssBlock) : Bool :=
  isNum b.title && goodLineB b.title &&
  b.mids.all (fun l => goodLineB l && !isNum l) &&
  goodLineB (vibeLine b) && !isNum (vibeLine b) &&
  b.vibeLabel.all (fun a => !(a = ':')) &&
  decide ((trim b.vibeLabel).map Char.toLower = vibeWord) &&
  tagOkB b.tag1 && tagOkB b.tag2 && tagOkB b.tag3

theorem wfEss_parts {b : EssBlock} (h : wfEssBlock b = true) :
    isNum b.title = true ∧ goodLineB b.title = true ∧
    (∀ l ∈ b.mids, goodLineB l = true ∧ isNum l = false) ∧
    goodLineB (vibeLine b) = true ∧ isNum (vibeLine b) = false ∧
    ((':' : Char) ∉ b.vibeLabel) ∧
    (trim b.vibeLabel).map Char.toLower = vibeWord ∧
    tagOkB b.tag1 = true ∧ tagOkB b.tag2 = true ∧ tagOkB b.tag3 = true := by
  unfold wfEssBlock at h
  simp only [Bool.and_eq_true, List.all_eq_true, Bool.not_eq_true',
    decide_eq_true_eq, decide_eq_false_iff_not] at h
  obtain ⟨⟨⟨⟨⟨⟨⟨⟨⟨h1, h2⟩, h3⟩, h4⟩, h5⟩, h6⟩, h7⟩, h8⟩, h9⟩, h10⟩ := h
  refine ⟨h1, h2, h3, h4, h5, ?_, h7, h8, h9, h10⟩
  intro hmem
  exact h6 ':' hmem rfl

theorem tagOk_parts {t : List Char} (h : tagOkB t = true) :
    (∀ a ∈ t, a ≠ ',' ∧ a ≠ ';') ∧ trim t ≠ [] := by
  unfold tagOkB at h
  simp only [Bool.and_eq_true, List.all_eq_true, Bool.not_eq_true',
    decide_eq_false_iff_not] at h
  refine ⟨fun a ha => h.1 a ha, ?_⟩
  intro hnil
  rw [hnil] at h
  simp at h

theorem getLast?_chain (w v : List Char) (c : Char) (hv : v ≠ []) :
    (w ++ c :: v).getLast? = v.getLast? := by
  rw [show w ++ c :: v = (w ++ [c]) ++ v by simp]
  exact List.getLast?_append_of_ne_nil _ hv

theorem wfEss_wfBlock {b : EssBlock} (h : wfEssBlock b = true) :
    wfBlockB (blockLines b) = true := by
  obtain ⟨hnum, hgT, hmids, hgV, hnV, -, -, -, -, -⟩ := wfEss_parts h
  unfold wfBlockB blockLines
  simp only [Bool.and_eq_true, List.all_eq_true]
  refine ⟨⟨hnum, hgT⟩, ?_⟩
  intro l hl
  rcases List.mem_append.mp hl with hm | hm
  · have := hmids l hm
    simp [this.1, this.2]
  · rcases List.mem_singleton.mp hm with rfl
    simp [hgV, hnV]

theorem vibeLine_parse (b : EssBlock) (h : wfEssBlock b = true) :
    parseAttr (vibeLine b) =
      .vibe (trim b.vibeLabel) [trim b.tag1, trim b.tag2, trim b.tag3] := by
  obtain ⟨-, -, -, hgV, -, hlbl, hvw, ht1, ht2, ht3⟩ := wfEss_parts h
  obtain ⟨hs1, he1⟩ := tagOk_parts ht1
  obtain ⟨hs2, he2⟩ := tagOk_parts ht2
  obtain ⟨hs3, he3⟩ := tagOk_parts ht3
  have hlast : ∀ c, b.tag3.getLast? = some c → isWs c = false := by
    intro c hc
    refine good_getLast_not_ws hgV c ?_
    unfold vibeLine
    rw [getLast?_chain _ _ ':' (by simp)]
    rw [getLast?_chain _ _ ',' (by simp)]
    rw [getLast?_chain _ _ ',' (trim_ne_nil_ne he3)]
    exact hc
  unfold vibeLine
  rw [parseAttr_split _ _ hlbl, if_pos hvw]
  rw [splitTags_three _ _ _ hs1 hs2 hs3 he1 he2 he3 hlast]

/-- The Essentials body built from a list of blocks: all their lines
joined with single newlines. -/
def essBody (blocks : List EssBlock) : List Char :=
  joinSep ['\n'] (blocks.map blockLines).flatten

/-- C6: an Essentials body made of 10 numbered blocks, each ending in
a `Vibe: X, Y, Z` line, parses to exactly 10 items whose last attribute
is a three-element tag sequence. -/
theorem essentials_ten_vibe_blocks (blocks : List EssBlock)
    (hlen : blocks.length = 10)
    (hwf : ∀ b ∈ blocks, wfEssBlock b = true) :
    (essItems (essBody blocks)).length = 10 ∧
    ∀ it ∈ essItems (essBody blocks), ∃ lbl tags,
      it.attrs.getLast? = some (.vibe lbl tags) ∧ tags.length = 3 := by
  have hwfb : ∀ b2 ∈ blocks.map blockLines, wfBlockB b2 = true := by
    intro b2 hb2
    obtain ⟨b, hb, rfl⟩ := List.mem_map.mp hb2
    exact wfEss_wfBlock (hwf b hb)
  have hne : blocks.map blockLines ≠ [] := by
    intro hnil
    have := congrArg List.length hnil
    simp [hlen] at this
  have hitems : essItems (essBody blocks) = blocks.map (fun b =>
      ⟨stripOrd b.title, (b.mids ++ [vibeLine b]).map parseAttr⟩) := by
    unfold essItems essBody
    rw [splitBlocks_flatten _ hne hwfb, List.map_map, List.filterMap_map]
    refine filterMap_eq_map_of _ _ _ ?_
    intro b hb
    show itemOfBlock (joinSep ['\n'] (blockLines b)) = _
    have hgood : ∀ l ∈ b.title :: (b.mids ++ [vibeLine b]), goodLineB l = true := by
      have := wf_all_good (wfEss_wfBlock (hwf b hb))
      simpa [blockLines] using this
    exact itemOfBlock_joinSep _ _ hgood
  constructor
  · rw [hitems, List.length_map, hlen]
  · intro it hit
    rw [hitems] at hit
    obtain ⟨b, hb, rfl⟩ := List.mem_map.mp hit
    refine ⟨trim b.vibeLabel, [trim b.tag1, trim b.tag2, trim b.tag3], ?_, rfl⟩
    show ((b.mids ++ [vibeLine b]).map parseAttr).getLast? = _
    rw [List.map_append]
    simp only [List.map_cons, List.map_nil]
    rw [List.getLast?_concat]
    rw [vibeLine_parse b (hwf b hb)]

/-- A concrete ten-block Essentials input for the C6 witness. -/
def egEss (t : String) : EssBlock :=
  ⟨t.toList,
   ["What is it?: A thing.".toList, "Important because: reasons.".toList],
   "Vibe".toList, " bold".toList, " sharp".toList, " quick".toList⟩

def egTen : List EssBlock :=
  [egEss "1. One", egEss "2. Two", egEss "3. Three", egEss "4. Four",
   egEss "5. Five", egEss "6. Six", egEss "7. Seven", egEss "8. Eight",
   egEss "9. Nine", egEss "10. Ten"]

/-- C6 witness: the theorem applied to a concrete ten-block body. -/
theorem essentials_ten_vibe_blocks_witness :
    egTen.length = 10 ∧ (∀ b ∈ egTen, wfEssBlock b = true) ∧
    (essItems (essBody egTen)).length = 10 :=
  ⟨by decide, by decide,
    (essentials_ten_vibe_blocks egTen (by decide) (by decide)).1⟩

/-! ## Claim C10: leading non-numbered lines form a leading item -/

/-- The first character, if any, is not a decimal digit. -/
def headNotDigit : List Char → Bool
  | [] => true
  | c :: _ => !c.isDigit

theorem stripOrd_of_headNotDigit (l : List Char)
    (h : headNotDigit l = true) : stripOrd l = l := by
  cases l with
  | nil => rfl
  | cons c cs =>
    have hc : c.isDigit = false := by simpa [headNotDigit] using h
    unfold stripOrd
    simp [List.takeWhile_cons, hc]

/-- C10: lines before the first numbered line are grouped into an extra
leading block: the item count is the numbered-block count plus one, the
leading item is rendered first, and its title is the first leading line
unchanged (no ordinal to strip). -/
theorem essentials_leading_block (l0 : List Char) (lrest : List (List Char))
    (blocks : List (List (List Char)))
    (h0 : goodLineB l0 = true) (h0n : isNum l0 = false)
    (h0d : headNotDigit l0 = true)
    (hrest : ∀ l ∈ lrest, goodLineB l = true ∧ isNum l = false)
    (hblocks : ∀ b ∈ blocks, wfBlockB b = true) :
    (essItems (joinSep ['\n'] ((l0 :: lrest) ++ blocks.flatten))).length =
      blocks.length + 1 ∧
    (essItems (joinSep ['\n'] ((l0 :: lrest) ++ blocks.flatten))).head? =
      some ⟨l0, lrest.map parseAttr⟩ := by
  have hlead : ∀ l ∈ l0 :: lrest, goodLineB l = true ∧ isNum l = false := by
    intro l hl
    rcases List.mem_cons.mp hl with rfl | hl
    · exact ⟨h0, h0n⟩
    · exact hrest l hl
  have hnl : ∀ l ∈ (l0 :: lrest) ++ blocks.flatten, ∀ a ∈ l, a ≠ '\n' := by
    intro l hl a ha
    rcases List.mem_append.mp hl with hl | hl
    · exact good_no_nl (hlead l hl).1 a ha
    · obtain ⟨b, hb, hlb⟩ := List.mem_flatten.mp hl
      exact good_no_nl (wf_all_good (hblocks b hb) l hlb) a ha
  have hsplit : splitBlocks (joinSep ['\n'] ((l0 :: lrest) ++ blocks.flatten)) =
      joinSep ['\n'] (l0 :: lrest) :: blocks.map (joinSep ['\n']) := by
    unfold splitBlocks
    rw [splitOnChar_joinSep '\n' _ (by simp) hnl]
    rw [blocksGo_nonnum (l0 :: lrest) hlead blocks.flatten [] []]
    rw [show ([] : List (List Char)) ++ (l0 :: lrest) = l0 :: lrest by simp]
    rw [blocksGo_blocks blocks hblocks (l0 :: lrest) []]
    rfl
  have hx : itemOfBlock (joinSep ['\n'] (l0 :: lrest)) =
      some ⟨l0, lrest.map parseAttr⟩ := by
    rw [itemOfBlock_joinSep l0 lrest (fun l hl => (hlead l hl).1)]
    rw [stripOrd_of_headNotDigit l0 h0d]
  have hsome : ∀ b ∈ blocks, (itemOfBlock (joinSep ['\n'] b)).isSome = true := by
    intro b hb
    have hwf := hblocks b hb
    cases b with
    | nil => simp [wfBlockB] at hwf
    | cons bh bt =>
      rw [itemOfBlock_joinSep bh bt (wf_all_good hwf)]
      rfl
  have hlen2 : ((blocks.map (joinSep ['\n'])).filterMap itemOfBlock).length =
      blocks.length := by
    rw [List.filterMap_map]
    refine filterMap_length_of_isSome _ _ ?_
    intro b hb
    show (itemOfBlock (joinSep ['\n'] b)).isSome = true
    exact hsome b hb
  unfold essItems
  rw [hsplit]
  simp only [List.filterMap_cons, hx]
  refine ⟨?_, rfl⟩
  simp only [List.length_cons]
  rw [hlen2]

/-- C10 witness: a body with two leading lines before one numbered
block yields two items, the first titled by the first leading line. -/
theorem essentials_leading_block_witness :
    goodLineB "Overview of the list".toList = true ∧
    (essItems (joinSep ['\n']
        (("Overview of the list".toList :: ["Note: informal".toList]) ++
          [["1. One".toList, "Vibe: a, b".toList]].flatten))).length = 1 + 1 :=
  ⟨by decide,
    (essentials_leading_block "Overview of the list".toList
      ["Note: informal".toList] [["1. One".toList, "Vibe: a, b".toList]]
      (by decide) (by decide) (by decide) (by decide) (by decide)).1⟩

/-- C2: the endpoint answers HTTP 400 exactly when the topic is empty or
whitespace-only (empty after trimming) or longer than 200 characters;
in particular a 200-character topic is never rejected by the length
check. -/
theorem post_status_400_iff (topic : List Char) (apiKey : Option (List Char))
    (svc : SvcOutcome) :
    (post topic apiKey svc).status = 400 ↔
      (trim topic = [] ∨ 200 < topic.length) := by
  unfold post
  by_cases h1 : topic = [] ∨ trim topic = []
  · rw [if_pos h1]
    refine iff_of_true rfl (Or.inl ?_)
    rcases h1 with h | h
    · rw [h]; rfl
    · exact h
  · rw [if_neg h1]
    push_neg at h1
    by_cases h2 : 200 < topic.length
    · rw [if_pos h2]
      exact iff_of_true rfl (Or.inr h2)
    · rw [if_neg h2]
      have hfalse : ¬(trim topic = [] ∨ 200 < topic.length) := by
        rintro (h | h)
        · exact h1.2 h
        · exact h2 h
      cases apiKey with
      | none => exact iff_of_false (by simp) hfalse
      | some k =>
        cases svc with
        | reply content =>
          cases content with
          | none => exact iff_of_false (by simp) hfalse
          | some c =>
            exact iff_of_false (by by_cases hc : c = [] <;> simp [hc]) hfalse
        | failure d => exact iff_of_false (by simp) hfalse

/-- C3 (amended): a validated topic is forwarded as the user message of
the completion request exactly as received — not trimmed. -/
theorem post_user_msg (topic key : List Char) (svc : SvcOutcome)
    (h1 : trim topic ≠ []) (h2 : topic.length ≤ 200) :
    (post topic (some key) svc).userMsg = some topic := by
  have hne : ¬(topic = [] ∨ trim topic = []) := by
    rintro (h | h)
    · exact h1 (by rw [h]; rfl)
    · exact h1 h
  have hlen : ¬(200 < topic.length) := by omega
  cases svc with
  | reply content =>
    cases content with
    | none => simp [post, hne, hlen]
    | some c =>
      by_cases hc : c = [] <;> simp [post, hne, hlen, hc]
  | failure d => simp [post, hne, hlen]

/-- C3 witness: the amended theorem at a concrete validated topic. -/
theorem post_user_msg_witness :
    trim "Bitcoin".toList ≠ [] ∧ "Bitcoin".toList.length ≤ 200 ∧
    (post "Bitcoin".toList (some "k".toList)
        (.reply (some "r".toList))).userMsg = some "Bitcoin".toList :=
  ⟨by decide, by decide,
    post_user_msg "Bitcoin".toList "k".toList _ (by decide) (by decide)⟩

/-- C3 counterexample: the claim as stated — that the *trimmed* topic
is passed downstream — fails: a validated topic with surrounding
whitespace is forwarded untrimmed. -/
theorem post_user_msg_counterexample :
    trim " Bitcoin ".toList ≠ [] ∧ " Bitcoin ".toList.length ≤ 200 ∧
    (post " Bitcoin ".toList (some "k".toList)
        (.reply (some "r".toList))).userMsg ≠ some (trim " Bitcoin ".toList) := by
  decide

/-- C7: with the credential absent, every validated topic yields
HTTP 500 with the generic configuration message and no completion call
(`userMsg = none`), whatever the service would have answered. -/
theorem post_missing_key (topic : List Char) (svc : SvcOutcome)
    (h1 : trim topic ≠ []) (h2 : topic.length ≤ 200) :
    post topic none svc = ⟨500, .err apiKeyMsg, none⟩ := by
  have hne : ¬(topic = [] ∨ trim topic = []) := by
    rintro (h | h)
    · exact h1 (by rw [h]; rfl)
    · exact h1 h
  have hlen : ¬(200 < topic.length) := by omega
  simp [post, hne, hlen]

/-- C7 witness. -/
theorem post_missing_key_witness :
    trim "Bitcoin".toList ≠ [] ∧ "Bitcoin".toList.length ≤ 200 ∧
    post "Bitcoin".toList none (.reply (some "r".toList)) =
      ⟨500, .err apiKeyMsg, none⟩ :=
  ⟨by decide, by decide,
    post_missing_key "Bitcoin".toList _ (by decide) (by decide)⟩

/-- C8: every failure of the completion call — a thrown service error
(whatever internal detail it carries), a completion with missing
content, or one with empty content — is converted to HTTP 500 whose
error text is the fixed generic message, which therefore contains no
internal exception detail. -/
theorem post_failure_generic (topic key detail : List Char)
    (h1 : trim topic ≠ []) (h2 : topic.length ≤ 200) :
    post topic (some key) (.failure detail) = ⟨500, .err genericMsg, some topic⟩ ∧
    post topic (some key) (.reply none) = ⟨500, .err genericMsg, some topic⟩ ∧
    post topic (some key) (.reply (some [])) = ⟨500, .err genericMsg, some topic⟩ := by
  have hne : ¬(topic = [] ∨ trim topic = []) := by
    rintro (h | h)
    · exact h1 (by rw [h]; rfl)
    · exact h1 h
  have hlen : ¬(200 < topic.length) := by omega
  refine ⟨?_, ?_, ?_⟩ <;> simp [post, hne, hlen]

/-- C8 witness. -/
theorem post_failure_generic_witness :
    trim "Bitcoin".toList ≠ [] ∧ "Bitcoin".toList.length ≤ 200 ∧
    post "Bitcoin".toList (some "k".toList)
        (.failure "ECONNREFUSED 127.0.0.1".toList) =
      ⟨500, .err genericMsg, some "Bitcoin".toList⟩ :=
  ⟨by decide, by decide,
    (post_failure_generic "Bitcoin".toList "k".toList _
      (by decide) (by decide)).1⟩

/-! ## Claim about the UI clear action -/

/-- C9: `clearAll` empties the topic, the result and the error fields
and leaves every other state field — the copy-feedback field and the
loading flag — unchanged. -/
theorem clearAll_frame (s : UIState) :
    (clearAll s).topic = [] ∧ (clearAll s).result = [] ∧
    (clearAll s).error = [] ∧
    (clearAll s).copyFeedback = s.copyFeedback ∧
    (clearAll s).loading = s.loading := by
  simp [clearAll]

end Nutshell
